import Mathlib

/-!
# StoryForge reference-resolution engine: a shallow embedding

This file embeds the reference-resolution core of
`src/backend/src/backend/project.py` (class `Project`) in Lean and proves
the specification's claims about it.

Modelling choices:
* Python strings are lists of characters (`Str := List Char`).
* The document tree `state["blocks"]` is an association list
  category → (block name → block data), where block data maps stage names
  to stages.  Python dicts preserve insertion order, which association
  lists capture; dict lookup is first-match lookup (`dictGet`).
* The regex `REFERENCE_PATTERN = \[([a-zA-Z_][a-zA-Z0-9_]*(?::[a-zA-Z_][a-zA-Z0-9_]*){0,2})]`
  is modelled by a character-level scanner.  The pattern is deterministic:
  each identifier segment is maximal (backtracking to a shorter segment
  puts an identifier character where `:` or `]` is required, which fails),
  and reducing the number of `:ident` repetitions when more were possible
  puts a `:` where `]` is required, which also fails.  Hence the greedy,
  commit-on-success scanner below computes exactly the regex matches, and
  `re.sub` / `re.findall` advance one character after a failed match
  attempt, which the scanners reproduce.
* `expand_references` / `findall` recurse on the text remaining after a
  match, which is a strict suffix but not a structural one; they are
  implemented with a fuel parameter (fuel = text length suffices and a
  lemma shows any sufficient fuel gives the same result), keeping them
  kernel-computable.
-/

namespace StoryForge

/-- Python strings, as lists of characters. -/
abbrev Str := List Char

/-- A stage dict: `{"input": ..., "selected": ..., "output": {...}}`.
`output` maps version keys to content. -/
structure Stage where
  input : Str
  selected : Str
  output : List (Str × Str)
deriving DecidableEq

/-- A block: mapping of stage name → stage, insertion order significant. -/
abbrev BlockData := List (Str × Stage)

/-- A category: mapping of block name → block data. -/
abbrev CategoryBlocks := List (Str × BlockData)

/-- The `state["blocks"]` tree: mapping of category name → category. -/
abbrev Blocks := List (Str × CategoryBlocks)

/-- Python dict lookup `d.get(k)`: first entry with the given key. -/
def dictGet {α : Type} (k : Str) : List (Str × α) → Option α
  | [] => none
  | p :: rest => if p.1 = k then some p.2 else dictGet k rest

/-- Model of `Project.get_block`: `self._state["blocks"].get(category, {}).get(name)`. -/
def get_block (B : Blocks) (category name : Str) : Option BlockData :=
  match dictGet category B with
  | none => none
  | some blks => dictGet name blks

/-- The `matches` list built inside `Project._find_block_by_name`:
all `(category, block_data)` pairs whose category contains a block
with the given name. -/
def blockMatches (B : Blocks) (name : Str) : List (Str × BlockData) :=
  B.filterMap fun p => (dictGet name p.2).map fun bd => (p.1, bd)

/-- Model of `Project._find_block_by_name`: the unique match, `none` when the name
is missing or ambiguous (zero or two-plus matches). -/
def find_block_by_name (B : Blocks) (name : Str) : Option (Str × BlockData) :=
  match blockMatches B name with
  | [m] => some m
  | _ => none

/-- Model of `Project._get_stage_output`: selected output of a named stage;
`none` for a missing stage, an empty `selected` field, or a dangling
selection. -/
def get_stage_output (bd : BlockData) (stage : Str) : Option Str :=
  match dictGet stage bd with
  | none => none
  | some st => if st.selected = [] then none else dictGet st.selected st.output

/-- Model of `Project._get_default_stage_output`: output of the first stage in the
block's insertion order; `none` for a stage-less block. -/
def get_default_stage_output (bd : BlockData) : Option Str :=
  match bd with
  | [] => none
  | (sn, _) :: _ => get_stage_output bd sn

/-- One character of `"[]"`, the strip set of `ref.strip("[]")`. -/
def isBracket (c : Char) : Bool := c = '[' || c = ']'

/-- Model of `str.strip("[]")`: remove bracket characters from both ends. -/
def stripBrackets (s : Str) : Str :=
  ((s.dropWhile isBracket).reverse.dropWhile isBracket).reverse

/-- Model of `str.split(":")`. -/
def splitOnColon : Str → List Str
  | [] => [[]]
  | c :: cs =>
    if c = ':' then [] :: splitOnColon cs
    else
      match splitOnColon cs with
      | [] => [[c]]
      | p :: ps => (c :: p) :: ps

/-- Model of `Project.resolve_reference`, as a pure function of the blocks tree
(the value returned; the state effect of `_ensure_blocks_section` is
modelled separately on `PState`). -/
def resolve_reference (B : Blocks) (ref : Str) : Option Str :=
  match splitOnColon (stripBrackets ref) with
  | [block_name] =>
    match find_block_by_name B block_name with
    | none => none
    | some (_, block_data) => get_default_stage_output block_data
  | [first, second] =>
    match get_block B first second with
    | some block_data => get_default_stage_output block_data
    | none =>
      match find_block_by_name B first with
      | some (_, block_data) => get_stage_output block_data second
      | none => none
  | [category, block_name, stage] =>
    match get_block B category block_name with
    | none => none
    | some block_data => get_stage_output block_data stage
  | _ => none

/-- Model of `Project._reference_matches`. -/
def reference_matches (ref target_category target_block : Str) : Bool :=
  match splitOnColon ref with
  | [p] => p = target_block
  | [a, b] => (a = target_category && b = target_block) || a = target_block
  | [a, b, _] => a = target_category && b = target_block
  | _ => false

/-- Class `[a-zA-Z_]`: the first character of an identifier segment. -/
def isIdentStart (c : Char) : Bool := c.isAlpha || c = '_'

/-- Class `[a-zA-Z0-9_]`: a subsequent character of an identifier segment. -/
def isIdentChar (c : Char) : Bool := c.isAlphanum || c = '_'

/-- A whole string is one identifier segment. -/
def isIdentStr : Str → Bool
  | [] => false
  | c :: cs => isIdentStart c && cs.all isIdentChar

/-- Consume a maximal identifier segment (`[a-zA-Z_][a-zA-Z0-9_]*`). -/
def takeIdent : Str → Option (Str × Str)
  | [] => none
  | c :: cs =>
    if isIdentStart c then some (c :: cs.takeWhile isIdentChar, cs.dropWhile isIdentChar)
    else none

/-- Consume one `(?::[a-zA-Z_][a-zA-Z0-9_]*)` repetition. -/
def takeColonIdent (cs : Str) : Option (Str × Str) :=
  match cs with
  | c :: rest => if c = ':' then takeIdent rest else none
  | [] => none

/-- Require the closing `]`; on success return the captured token and the
text after the match. -/
def closeTok (tok rest : Str) : Option (Str × Str) :=
  match rest with
  | c :: rest2 => if c = ']' then some (tok, rest2) else none
  | [] => none

/-- Attempt a `REFERENCE_PATTERN` match directly after an opening `[`:
one identifier segment, then greedily up to two `:ident` repetitions,
then the closing `]`.  Returns the captured group (the token, brackets
excluded) and the remaining text. -/
def matchAfterBracket (cs : Str) : Option (Str × Str) :=
  match takeIdent cs with
  | none => none
  | some (w0, r0) =>
    match takeColonIdent r0 with
    | none => closeTok w0 r0
    | some (w1, r1) =>
      match takeColonIdent r1 with
      | none => closeTok (w0 ++ ':' :: w1) r1
      | some (w2, r2) => closeTok (w0 ++ ':' :: w1 ++ ':' :: w2) r2

/-- Model of `REFERENCE_PATTERN.findall(text)` with explicit fuel: scan left to
right; at each `[` attempt a match, on success record the captured token
and continue after the match, otherwise advance one character.  Fuel
bounds the recursion; `text.length` is always enough. -/
def findRefsFuel : Nat → Str → List Str
  | _, [] => []
  | 0, _ => []
  | fuel + 1, c :: cs =>
    if c = '[' then
      match matchAfterBracket cs with
      | some (tok, rest) => tok :: findRefsFuel fuel rest
      | none => findRefsFuel fuel cs
    else findRefsFuel fuel cs

/-- Model of `REFERENCE_PATTERN.findall(text)`. -/
def findRefsChars (text : Str) : List Str :=
  findRefsFuel text.length text

/-- Model of `REFERENCE_PATTERN.sub(replace_ref, text)` with explicit fuel:
resolved tokens are replaced by their content, unresolved matches are
kept verbatim (`match.group(0)` is `'[' ++ tok ++ "]"`), everything else
is copied. -/
def expandFuel (B : Blocks) : Nat → Str → Str
  | _, [] => []
  | 0, text => text
  | fuel + 1, c :: cs =>
    if c = '[' then
      match matchAfterBracket cs with
      | some (tok, rest) =>
        match resolve_reference B tok with
        | some content => content ++ expandFuel B fuel rest
        | none => '[' :: (tok ++ ']' :: expandFuel B fuel rest)
      | none => c :: expandFuel B fuel cs
    else c :: expandFuel B fuel cs

/-- Model of `Project.expand_references` (the returned text). -/
def expandChars (B : Blocks) (text : Str) : Str :=
  expandFuel B text.length text

/-- Model of `Project.find_references_in` (the returned list): all reference
tokens appearing in any stage input of the block, deduplicated.  Python
builds `list(set(references))`, whose order is unspecified;
`eraseDups` keeps first occurrences — only membership is relied upon. -/
def find_references_in (B : Blocks) (category block : Str) : List Str :=
  match get_block B category block with
  | none => []
  | some bd => (bd.flatMap fun q => findRefsChars q.2.input).eraseDups

/-- Whether some reference token of a stage's input matches the target
(the inner `for ref in refs: if ...: break` loop of
`Project.find_references_to`). -/
def stage_matches (category block : Str) (st : Stage) : Bool :=
  (findRefsChars st.input).any fun ref => reference_matches ref category block

/-- The inner stage loop of `Project.find_references_to`: a stage
contributes its `(cat, block, stage)` triple exactly when some token of
its input matches the target (Python breaks after the first match, so at
most one triple per stage). -/
def stage_scan (category block cat bn : Str) (bd : BlockData) :
    List (Str × Str × Str) :=
  bd.filterMap fun r =>
    if stage_matches category block r.2 then some (cat, bn, r.1) else none

/-- The per-category loop of `Project.find_references_to`. -/
def block_scan (category block cat : Str) (blks : CategoryBlocks) :
    List (Str × Str × Str) :=
  blks.flatMap fun q => stage_scan category block cat q.1 q.2

/-- Model of `Project.find_references_to` (the returned list). -/
def find_references_to (B : Blocks) (category block : Str) :
    List (Str × Str × Str) :=
  B.flatMap fun p => block_scan category block p.1 p.2

/-!
## The stateful layer

`Project._state` may lack the `"blocks"` key (e.g. `Project.load`
validates only the presence of `"storyforge"`); `_ensure_blocks_section`
then inserts `"blocks": {}`.  Every reference operation reaches
`_ensure_blocks_section` (directly, or via `get_block` /
`_find_block_by_name`) except `resolve_reference` on a reference of four
or more segments, which returns before any lookup, and
`expand_references` on a text without any pattern match, which never
calls the resolver.  `PState` models the presence of the `"blocks"` key
and the untouched remaining top-level fields. -/
structure PState where
  blocks? : Option Blocks
  rest : List (Str × Str)

/-- The blocks tree the operations read: `{}` when the section is missing. -/
def PState.blocks (s : PState) : Blocks := s.blocks?.getD []

/-- Model of `Project._ensure_blocks_section`. -/
def ensure_blocks_section (s : PState) : PState := ⟨some s.blocks, s.rest⟩

/-- Model of `Project.resolve_reference` with its state effect: every 1-, 2- or
3-segment reference performs lookups that ensure the blocks section;
any other segment count returns `None` untouched. -/
def resolve_reference_st (s : PState) (ref : Str) : Option Str × PState :=
  if (splitOnColon (stripBrackets ref)).length ≤ 3 then
    (resolve_reference s.blocks ref, ensure_blocks_section s)
  else (none, s)

/-- Model of `Project.expand_references` with its state effect: the resolver (and
hence `_ensure_blocks_section`) runs once per pattern match. -/
def expand_references_st (s : PState) (text : Str) : Str × PState :=
  (expandChars s.blocks text,
    if findRefsChars text = [] then s else ensure_blocks_section s)

/-- Model of `Project.find_references_in` with its state effect (`get_block`
always runs). -/
def find_references_in_st (s : PState) (category block : Str) :
    List Str × PState :=
  (find_references_in s.blocks category block, ensure_blocks_section s)

/-- Model of `Project.find_references_to` with its state effect
(`_ensure_blocks_section` is called first thing). -/
def find_references_to_st (s : PState) (category block : Str) :
    List (Str × Str × Str) × PState :=
  (find_references_to s.blocks category block, ensure_blocks_section s)

/-- The token `t` wrapped in one bracket pair, `"[" ++ t ++ "]"`. -/
def wrapRef (t : Str) : Str := '[' :: (t ++ [']'])

/-- Well-formedness of the modelled `state["blocks"]` tree: keys are
distinct at every level, as Python dicts guarantee. -/
def WF (B : Blocks) : Prop :=
  (B.map Prod.fst).Nodup ∧
    ∀ p ∈ B, (p.2.map Prod.fst).Nodup ∧ ∀ q ∈ p.2, (q.2.map Prod.fst).Nodup

/-!
## Basic lemmas: dictionary lookup and character classes
-/

theorem dictGet_mem {α : Type} {k : Str} {v : α} :
    ∀ {l : List (Str × α)}, dictGet k l = some v → (k, v) ∈ l := by
  intro l
  induction l with
  | nil => intro h; simp [dictGet] at h
  | cons p rest ih =>
    intro h
    rw [dictGet] at h
    by_cases hk : p.1 = k
    · rw [if_pos hk] at h
      cases h
      rw [← hk]
      simp
    · rw [if_neg hk] at h
      exact List.mem_cons_of_mem _ (ih h)

theorem isIdentStart_isIdentChar {c : Char} (h : isIdentStart c = true) :
    isIdentChar c = true := by
  rcases Bool.or_eq_true_iff.mp h with h1 | h1
  · exact Bool.or_eq_true_iff.mpr (Or.inl (by simp [Char.isAlphanum, h1]))
  · exact Bool.or_eq_true_iff.mpr (Or.inr h1)

theorem isIdentChar_ne_colon {c : Char} (h : isIdentChar c = true) : c ≠ ':' := by
  intro he
  subst he
  exact absurd h (by decide)

theorem isIdentChar_not_bracket {c : Char} (h : isIdentChar c = true) :
    isBracket c = false := by
  cases hb : isBracket c with
  | false => rfl
  | true =>
    have : c = '[' ∨ c = ']' := by
      simpa [isBracket, Bool.or_eq_true_iff, decide_eq_true_eq] using hb
    rcases this with h1 | h1 <;> subst h1 <;> exact absurd h (by decide)

theorem isIdentStr_chars {l : Str} (h : isIdentStr l = true) :
    ∀ c ∈ l, isIdentChar c = true := by
  cases l with
  | nil => intro c hc; simp at hc
  | cons d ds =>
    rw [isIdentStr, Bool.and_eq_true] at h
    intro c hc
    rcases List.mem_cons.mp hc with h1 | h1
    · subst h1; exact isIdentStart_isIdentChar h.1
    · exact (List.all_eq_true.mp h.2) c h1

theorem isIdentStr_no_colon {l : Str} (h : isIdentStr l = true) :
    ∀ c ∈ l, c ≠ ':' :=
  fun c hc => isIdentChar_ne_colon (isIdentStr_chars h c hc)

theorem isIdentStr_no_bracket {l : Str} (h : isIdentStr l = true) :
    ∀ c ∈ l, isBracket c = false :=
  fun c hc => isIdentChar_not_bracket (isIdentStr_chars h c hc)

/-!
## Parsing lemmas: `strip("[]")` and `split(":")`
-/

theorem dropWhile_eq_self {p : Char → Bool} :
    ∀ l : Str, (∀ c ∈ l, p c = false) → l.dropWhile p = l := by
  intro l h
  cases l with
  | nil => rfl
  | cons c cs => simp [List.dropWhile_cons, h c (List.mem_cons_self c cs)]

theorem stripBrackets_free {l : Str} (h : ∀ c ∈ l, isBracket c = false) :
    stripBrackets l = l := by
  unfold stripBrackets
  rw [dropWhile_eq_self l h,
    dropWhile_eq_self l.reverse (fun c hc => h c (List.mem_reverse.mp hc)),
    List.reverse_reverse]

theorem dropWhile_append_singleton {p : Char → Bool} :
    ∀ (t : Str) (x : Char),
      (t ++ [x]).dropWhile p =
        if t.dropWhile p = [] then [x].dropWhile p else t.dropWhile p ++ [x] := by
  intro t x
  induction t with
  | nil => simp
  | cons c t' ih =>
    rw [List.cons_append, List.dropWhile_cons, List.dropWhile_cons]
    cases hc : p c with
    | true => simpa using ih
    | false => simp

theorem stripBrackets_wrap (t : Str) : stripBrackets (wrapRef t) = stripBrackets t := by
  unfold stripBrackets wrapRef
  rw [List.dropWhile_cons]
  have hbr : isBracket '[' = true := by decide
  rw [hbr, if_pos rfl, dropWhile_append_singleton]
  by_cases hd : t.dropWhile isBracket = []
  · rw [if_pos hd, hd]
    decide
  · rw [if_neg hd, List.reverse_append, List.reverse_singleton, List.singleton_append,
      List.dropWhile_cons]
    have hbr2 : isBracket ']' = true := by decide
    rw [hbr2, if_pos rfl]

theorem splitOnColon_no_colon :
    ∀ l : Str, (∀ c ∈ l, c ≠ ':') → splitOnColon l = [l] := by
  intro l
  induction l with
  | nil => intro _; rfl
  | cons c cs ih =>
    intro h
    rw [splitOnColon, if_neg (h c (List.mem_cons_self c cs)),
      ih (fun d hd => h d (List.mem_cons_of_mem c hd))]

theorem splitOnColon_append :
    ∀ (a rest : Str), (∀ c ∈ a, c ≠ ':') →
      splitOnColon (a ++ ':' :: rest) = a :: splitOnColon rest := by
  intro a rest
  induction a with
  | nil => intro _; rw [List.nil_append, splitOnColon, if_pos rfl]
  | cons c a' ih =>
    intro h
    rw [List.cons_append, splitOnColon, if_neg (h c (List.mem_cons_self c a')),
      ih (fun d hd => h d (List.mem_cons_of_mem c hd))]

/-- Parsing a bare-name reference `[n]`. -/
theorem parse_one {n : Str} (hn : isIdentStr n = true) :
    splitOnColon (stripBrackets (wrapRef n)) = [n] := by
  rw [stripBrackets_wrap, stripBrackets_free (isIdentStr_no_bracket hn),
    splitOnColon_no_colon n (isIdentStr_no_colon hn)]

/-- Parsing a two-segment reference `[a:b]`. -/
theorem parse_two {a b : Str} (ha : isIdentStr a = true) (hb : isIdentStr b = true) :
    splitOnColon (stripBrackets (wrapRef (a ++ ':' :: b))) = [a, b] := by
  rw [stripBrackets_wrap]
  have hfree : ∀ c ∈ a ++ ':' :: b, isBracket c = false := by
    intro c hc
    rcases List.mem_append.mp hc with h1 | h1
    · exact isIdentStr_no_bracket ha c h1
    · rcases List.mem_cons.mp h1 with h2 | h2
      · subst h2; decide
      · exact isIdentStr_no_bracket hb c h2
  rw [stripBrackets_free hfree, splitOnColon_append a b (isIdentStr_no_colon ha),
    splitOnColon_no_colon b (isIdentStr_no_colon hb)]

/-- Parsing a three-segment reference `[a:b:c]`. -/
theorem parse_three {a b c : Str} (ha : isIdentStr a = true)
    (hb : isIdentStr b = true) (hc : isIdentStr c = true) :
    splitOnColon (stripBrackets (wrapRef (a ++ ':' :: (b ++ ':' :: c)))) = [a, b, c] := by
  rw [stripBrackets_wrap]
  have hfree : ∀ d ∈ a ++ ':' :: (b ++ ':' :: c), isBracket d = false := by
    intro d hd
    rcases List.mem_append.mp hd with h1 | h1
    · exact isIdentStr_no_bracket ha d h1
    · rcases List.mem_cons.mp h1 with h2 | h2
      · subst h2; decide
      · rcases List.mem_append.mp h2 with h3 | h3
        · exact isIdentStr_no_bracket hb d h3
        · rcases List.mem_cons.mp h3 with h4 | h4
          · subst h4; decide
          · exact isIdentStr_no_bracket hc d h4
  rw [stripBrackets_free hfree, splitOnColon_append a _ (isIdentStr_no_colon ha),
    splitOnColon_append b c (isIdentStr_no_colon hb),
    splitOnColon_no_colon c (isIdentStr_no_colon hc)]

/-!
## Unfolding the resolver on parsed references
-/

theorem resolve_reference_one {B : Blocks} {ref n : Str}
    (h : splitOnColon (stripBrackets ref) = [n]) :
    resolve_reference B ref =
      match find_block_by_name B n with
      | none => none
      | some (_, bd) => get_default_stage_output bd := by
  unfold resolve_reference
  rw [h]

theorem resolve_reference_two {B : Blocks} {ref a b : Str}
    (h : splitOnColon (stripBrackets ref) = [a, b]) :
    resolve_reference B ref =
      match get_block B a b with
      | some bd => get_default_stage_output bd
      | none =>
        match find_block_by_name B a with
        | some (_, bd) => get_stage_output bd b
        | none => none := by
  unfold resolve_reference
  rw [h]

theorem resolve_reference_three {B : Blocks} {ref a b c : Str}
    (h : splitOnColon (stripBrackets ref) = [a, b, c]) :
    resolve_reference B ref =
      match get_block B a b with
      | none => none
      | some bd => get_stage_output bd c := by
  unfold resolve_reference
  rw [h]

theorem find_block_by_name_of_two {B : Blocks} {n : Str}
    (h : 2 ≤ (blockMatches B n).length) : find_block_by_name B n = none := by
  rw [find_block_by_name]
  cases hm : blockMatches B n with
  | nil => simp [hm] at h
  | cons m tail =>
    cases tail with
    | nil => simp [hm] at h
    | cons m2 t2 => rfl

theorem find_block_by_name_of_zero {B : Blocks} {n : Str}
    (h : (blockMatches B n).length = 0) : find_block_by_name B n = none := by
  rw [find_block_by_name, List.length_eq_zero.mp h]

/-!
## Claim theorems (first group)
-/

/-- C2: when two or more categories contain a block with the same bare
name `n`, `resolve_reference "[n]"` returns `none` (ambiguity is
indistinguishable from not-found); for any category `c` that contains a
block named `n`, `resolve_reference "[c:n]"` resolves through that
block's default-stage output; and when no category contains a block
named `n`, `resolve_reference "[n]"` also returns `none`. -/
theorem bare_name_ambiguity (B : Blocks) (n c : Str)
    (hn : isIdentStr n = true) (hc : isIdentStr c = true) :
    (2 ≤ (blockMatches B n).length → resolve_reference B (wrapRef n) = none)
    ∧ (∀ bd, get_block B c n = some bd →
        resolve_reference B (wrapRef (c ++ ':' :: n)) = get_default_stage_output bd)
    ∧ ((blockMatches B n).length = 0 → resolve_reference B (wrapRef n) = none) := by
  refine ⟨?_, ?_, ?_⟩
  · intro h2
    rw [resolve_reference_one (parse_one hn), find_block_by_name_of_two h2]
  · intro bd hg
    rw [resolve_reference_two (parse_two hc hn), hg]
  · intro h0
    rw [resolve_reference_one (parse_one hn), find_block_by_name_of_zero h0]

/-- Witness for C2 on a concrete document: block `alice` exists in two
categories, so `[alice]` is ambiguous while `[character:alice]` resolves. -/
theorem bare_name_ambiguity_witness :
    resolve_reference
        [("character".data,
          [("alice".data,
            [("raw".data, ⟨[], "v1".data, [("v1".data, "A1".data)]⟩)])]),
         ("place".data,
          [("alice".data,
            [("raw".data, ⟨[], "v1".data, [("v1".data, "A2".data)]⟩)])])]
        (wrapRef "alice".data) = none
    ∧ resolve_reference
        [("character".data,
          [("alice".data,
            [("raw".data, ⟨[], "v1".data, [("v1".data, "A1".data)]⟩)])]),
         ("place".data,
          [("alice".data,
            [("raw".data, ⟨[], "v1".data, [("v1".data, "A2".data)]⟩)])])]
        (wrapRef ("character".data ++ ':' :: "alice".data)) =
      get_default_stage_output
        [("raw".data, ⟨[], "v1".data, [("v1".data, "A1".data)]⟩)] := by
  refine ⟨?_, ?_⟩
  · exact (bare_name_ambiguity _ "alice".data "character".data (by decide)
      (by decide)).1 (by decide)
  · exact (bare_name_ambiguity _ "alice".data "character".data (by decide)
      (by decide)).2.1 _ (by decide)

/-- C3: on a two-segment reference `[a:b]` the `category:block`
interpretation is tried first; only when category `a` has no block `b`
does resolution fall back to `block:stage`, and when both interpretations
fail the result is `none`. -/
theorem two_segment_precedence (B : Blocks) (a b : Str)
    (ha : isIdentStr a = true) (hb : isIdentStr b = true) :
    (∀ bd, get_block B a b = some bd →
        resolve_reference B (wrapRef (a ++ ':' :: b)) = get_default_stage_output bd)
    ∧ (∀ c bd, get_block B a b = none → find_block_by_name B a = some (c, bd) →
        resolve_reference B (wrapRef (a ++ ':' :: b)) = get_stage_output bd b)
    ∧ (get_block B a b = none → find_block_by_name B a = none →
        resolve_reference B (wrapRef (a ++ ':' :: b)) = none) := by
  refine ⟨?_, ?_, ?_⟩
  · intro bd hg
    rw [resolve_reference_two (parse_two ha hb), hg]
  · intro c bd hg hf
    rw [resolve_reference_two (parse_two ha hb), hg, hf]
  · intro hg hf
    rw [resolve_reference_two (parse_two ha hb), hg, hf]

/-- Witness for C3 on a concrete document: category `character` has a
block `summary`, so `[character:summary]` resolves via the
`category:block` path even though a block named `character` with a stage
`summary` also exists. -/
theorem two_segment_precedence_witness :
    resolve_reference
        [("character".data,
          [("summary".data,
            [("raw".data, ⟨[], "v1".data, [("v1".data, "CatWins".data)]⟩)])]),
         ("other".data,
          [("character".data,
            [("summary".data, ⟨[], "v1".data, [("v1".data, "StageLoses".data)]⟩)])])]
        (wrapRef ("character".data ++ ':' :: "summary".data)) =
      get_default_stage_output
        [("raw".data, ⟨[], "v1".data, [("v1".data, "CatWins".data)]⟩)] :=
  (two_segment_precedence _ "character".data "summary".data (by decide)
    (by decide)).1 _ (by decide)

/-- C5: the bare-name and `category:block` forms use the first stage in
the block's insertion order (the head of the stage list); a block with no
stages, or whose first stage has no selection, yields `none`. -/
theorem default_stage_first (B : Blocks) (c n : Str) (bd : BlockData)
    (hn : isIdentStr n = true) (hc : isIdentStr c = true) :
    (blockMatches B n = [(c, bd)] →
        resolve_reference B (wrapRef n) = get_default_stage_output bd)
    ∧ (get_block B c n = some bd →
        resolve_reference B (wrapRef (c ++ ':' :: n)) = get_default_stage_output bd)
    ∧ (∀ sn st rest2, bd = (sn, st) :: rest2 →
        get_default_stage_output bd =
          if st.selected = [] then none else dictGet st.selected st.output)
    ∧ (bd = [] → get_default_stage_output bd = none) := by
  refine ⟨?_, ?_, ?_, ?_⟩
  · intro hm
    rw [resolve_reference_one (parse_one hn), find_block_by_name, hm]
  · intro hg
    rw [resolve_reference_two (parse_two hc hn), hg]
  · intro sn st rest2 hbd
    subst hbd
    simp [get_default_stage_output, get_stage_output, dictGet]
  · intro hbd
    subst hbd
    rfl

/-- Witness for C5: two stages `raw` (selected `v1 = "Raw"`) then
`summary` (selected `v1 = "Summary"`); the bare form returns the first
declared stage's output `"Raw"`. -/
theorem default_stage_first_witness :
    resolve_reference
        [("character".data,
          [("alice".data,
            [("raw".data, ⟨[], "v1".data, [("v1".data, "Raw".data)]⟩),
             ("summary".data, ⟨[], "v1".data, [("v1".data, "Summary".data)]⟩)])])]
        (wrapRef "alice".data) =
      get_default_stage_output
        [("raw".data, ⟨[], "v1".data, [("v1".data, "Raw".data)]⟩),
         ("summary".data, ⟨[], "v1".data, [("v1".data, "Summary".data)]⟩)]
    ∧ get_default_stage_output
        [("raw".data, ⟨[], "v1".data, [("v1".data, "Raw".data)]⟩),
         ("summary".data, ⟨[], "v1".data, [("v1".data, "Summary".data)]⟩)] =
      some "Raw".data := by
  refine ⟨?_, by decide⟩
  exact (default_stage_first _ "character".data "alice".data _ (by decide)
    (by decide)).1 (by decide)

/-- C9: stage-output lookup returns `none` (and never fails) when the
stage is absent, when its `selected` field is the empty string, or when
`selected` names a version key missing from the stage's output mapping;
and it is exactly what `resolve_reference` uses for the
`category:block:stage` form. -/
theorem stage_output_absent_cases (bd : BlockData) (s : Str) :
    (dictGet s bd = none → get_stage_output bd s = none)
    ∧ (∀ st, dictGet s bd = some st → st.selected = [] →
        get_stage_output bd s = none)
    ∧ (∀ st, dictGet s bd = some st → dictGet st.selected st.output = none →
        get_stage_output bd s = none)
    ∧ (∀ (B : Blocks) (c n : Str), isIdentStr c = true → isIdentStr n = true →
        isIdentStr s = true → get_block B c n = some bd →
        resolve_reference B (wrapRef (c ++ ':' :: (n ++ ':' :: s))) =
          get_stage_output bd s) := by
  refine ⟨?_, ?_, ?_, ?_⟩
  · intro h
    rw [get_stage_output, h]
  · intro st h hsel
    rw [get_stage_output, h]
    simp [hsel]
  · intro st h hdangling
    rw [get_stage_output, h]
    by_cases hsel : st.selected = []
    · simp [hsel]
    · simp [hsel, hdangling]
  · intro B c n hc hn hs hg
    rw [resolve_reference_three (parse_three hc hn hs), hg]

/-- Witness for C9: a stage with a dangling selection (`selected = "v9"`
absent from the output mapping) yields `none`. -/
theorem stage_output_absent_cases_witness :
    get_stage_output
        [("raw".data, ⟨[], "v9".data, [("v1".data, "X".data)]⟩)] "raw".data =
      none :=
  (stage_output_absent_cases
      [("raw".data, ⟨[], "v9".data, [("v1".data, "X".data)]⟩)] "raw".data).2.2.1
    ⟨[], "v9".data, [("v1".data, "X".data)]⟩ (by decide) (by decide)

/-- C10: `resolve_reference` strips enclosing brackets before parsing, so
a token resolves identically with zero, one, or two layers of enclosing
brackets. -/
theorem resolve_reference_strip_brackets (B : Blocks) (t : Str) :
    resolve_reference B (wrapRef t) = resolve_reference B t
    ∧ resolve_reference B (wrapRef (wrapRef t)) = resolve_reference B t := by
  have congr_strip : ∀ r1 r2 : Str, stripBrackets r1 = stripBrackets r2 →
      resolve_reference B r1 = resolve_reference B r2 := by
    intro r1 r2 h
    unfold resolve_reference
    rw [h]
  refine ⟨congr_strip _ _ (stripBrackets_wrap t), ?_⟩
  exact congr_strip _ _ ((stripBrackets_wrap (wrapRef t)).trans (stripBrackets_wrap t))

/-!
## Scanner lemmas: reconstruction and fuel irrelevance
-/

theorem takeIdent_sound {cs w r : Str} (h : takeIdent cs = some (w, r)) :
    cs = w ++ r := by
  cases cs with
  | nil => simp [takeIdent] at h
  | cons c cs2 =>
    rw [takeIdent] at h
    by_cases hs : isIdentStart c = true
    · rw [if_pos hs] at h
      cases h
      rw [List.cons_append, List.takeWhile_append_dropWhile]
    · rw [if_neg hs] at h
      cases h

theorem takeColonIdent_sound {cs w r : Str} (h : takeColonIdent cs = some (w, r)) :
    cs = ':' :: (w ++ r) := by
  cases cs with
  | nil => simp [takeColonIdent] at h
  | cons c cs2 =>
    rw [takeColonIdent] at h
    by_cases hc : c = ':'
    · rw [if_pos hc] at h
      rw [hc, takeIdent_sound h]
    · rw [if_neg hc] at h
      cases h

theorem closeTok_sound {tok rest t2 r2 : Str} (h : closeTok tok rest = some (t2, r2)) :
    t2 = tok ∧ rest = ']' :: r2 := by
  cases rest with
  | nil => simp [closeTok] at h
  | cons c rest2 =>
    rw [closeTok] at h
    by_cases hc : c = ']'
    · rw [if_pos hc] at h
      cases h
      exact ⟨rfl, by rw [hc]⟩
    · rw [if_neg hc] at h
      cases h

theorem matchAfterBracket_sound {cs tok rest : Str}
    (h : matchAfterBracket cs = some (tok, rest)) : cs = tok ++ ']' :: rest := by
  rw [matchAfterBracket] at h
  split at h
  · cases h
  · rename_i w0 r0 h0
    split at h
    · obtain ⟨ht, hr⟩ := closeTok_sound h
      rw [takeIdent_sound h0, hr, ht]
    · rename_i w1 r1 h1
      split at h
      · obtain ⟨ht, hr⟩ := closeTok_sound h
        rw [takeIdent_sound h0, takeColonIdent_sound h1, hr, ht]
        simp
      · rename_i w2 r2 h2
        obtain ⟨ht, hr⟩ := closeTok_sound h
        rw [takeIdent_sound h0, takeColonIdent_sound h1, takeColonIdent_sound h2,
          hr, ht]
        simp

theorem matchAfterBracket_length {cs tok rest : Str}
    (h : matchAfterBracket cs = some (tok, rest)) : rest.length < cs.length := by
  rw [matchAfterBracket_sound h]
  simp [List.length_append]
  omega

theorem findRefsFuel_fuel_irrelevant :
    ∀ (f1 f2 : Nat) (l : Str), l.length ≤ f1 → l.length ≤ f2 →
      findRefsFuel f1 l = findRefsFuel f2 l := by
  intro f1
  induction f1 with
  | zero =>
    intro f2 l h1 _
    rw [List.length_eq_zero.mp (Nat.le_zero.mp h1)]
    cases f2 <;> rfl
  | succ f1' ih =>
    intro f2 l h1 h2
    cases l with
    | nil => cases f2 <;> rfl
    | cons c cs =>
      cases f2 with
      | zero => simp at h2
      | succ f2' =>
        rw [List.length_cons, Nat.succ_le_succ_iff] at h1 h2
        by_cases hc : c = '['
        · subst hc
          cases hm : matchAfterBracket cs with
          | none => simp [findRefsFuel, hm, ih f2' cs h1 h2]
          | some p =>
            obtain ⟨tok, rest⟩ := p
            have hlen := Nat.le_of_lt (matchAfterBracket_length hm)
            simp [findRefsFuel, hm,
              ih f2' rest (Nat.le_trans hlen h1) (Nat.le_trans hlen h2)]
        · simp [findRefsFuel, hc, ih f2' cs h1 h2]

theorem expandFuel_fuel_irrelevant (B : Blocks) :
    ∀ (f1 f2 : Nat) (l : Str), l.length ≤ f1 → l.length ≤ f2 →
      expandFuel B f1 l = expandFuel B f2 l := by
  intro f1
  induction f1 with
  | zero =>
    intro f2 l h1 _
    rw [List.length_eq_zero.mp (Nat.le_zero.mp h1)]
    cases f2 <;> rfl
  | succ f1' ih =>
    intro f2 l h1 h2
    cases l with
    | nil => cases f2 <;> rfl
    | cons c cs =>
      cases f2 with
      | zero => simp at h2
      | succ f2' =>
        rw [List.length_cons, Nat.succ_le_succ_iff] at h1 h2
        by_cases hc : c = '['
        · subst hc
          cases hm : matchAfterBracket cs with
          | none => simp [expandFuel, hm, ih f2' cs h1 h2]
          | some p =>
            obtain ⟨tok, rest⟩ := p
            have hlen := Nat.le_of_lt (matchAfterBracket_length hm)
            have hrw := ih f2' rest (Nat.le_trans hlen h1) (Nat.le_trans hlen h2)
            cases hr : resolve_reference B tok <;>
              simp [expandFuel, hm, hr, hrw]
        · simp [expandFuel, hc, ih f2' cs h1 h2]

/-!
## Step equations for `findRefsChars` and `expandChars`
-/

theorem findRefsChars_cons_other {c : Char} {cs : Str} (h : c ≠ '[') :
    findRefsChars (c :: cs) = findRefsChars cs := by
  rw [findRefsChars, findRefsChars, List.length_cons]
  simp [findRefsFuel, h]

theorem findRefsChars_bracket_none {cs : Str} (h : matchAfterBracket cs = none) :
    findRefsChars ('[' :: cs) = findRefsChars cs := by
  rw [findRefsChars, findRefsChars, List.length_cons]
  simp [findRefsFuel, h]

theorem findRefsChars_bracket_some {cs tok rest : Str}
    (h : matchAfterBracket cs = some (tok, rest)) :
    findRefsChars ('[' :: cs) = tok :: findRefsChars rest := by
  rw [findRefsChars, findRefsChars, List.length_cons]
  simp only [findRefsFuel, h]
  exact congrArg _ (findRefsFuel_fuel_irrelevant _ _ rest
    (Nat.le_of_lt (matchAfterBracket_length h)) (Nat.le_refl _))

theorem expandChars_cons_other (B : Blocks) {c : Char} {cs : Str} (h : c ≠ '[') :
    expandChars B (c :: cs) = c :: expandChars B cs := by
  rw [expandChars, expandChars, List.length_cons]
  simp [expandFuel, h]

theorem expandChars_bracket_none (B : Blocks) {cs : Str}
    (h : matchAfterBracket cs = none) :
    expandChars B ('[' :: cs) = '[' :: expandChars B cs := by
  rw [expandChars, expandChars, List.length_cons]
  simp [expandFuel, h]

theorem expandChars_bracket_resolved (B : Blocks) {cs tok rest v : Str}
    (h : matchAfterBracket cs = some (tok, rest))
    (hv : resolve_reference B tok = some v) :
    expandChars B ('[' :: cs) = v ++ expandChars B rest := by
  rw [expandChars, expandChars, List.length_cons]
  simp only [expandFuel, h, hv]
  exact congrArg _ (expandFuel_fuel_irrelevant B _ _ rest
    (Nat.le_of_lt (matchAfterBracket_length h)) (Nat.le_refl _))

theorem expandChars_bracket_unresolved (B : Blocks) {cs tok rest : Str}
    (h : matchAfterBracket cs = some (tok, rest))
    (hv : resolve_reference B tok = none) :
    expandChars B ('[' :: cs) = '[' :: (tok ++ ']' :: expandChars B rest) := by
  rw [expandChars, expandChars, List.length_cons]
  simp only [expandFuel, h, hv]
  exact congrArg _ (congrArg _ (congrArg _ (expandFuel_fuel_irrelevant B _ _ rest
    (Nat.le_of_lt (matchAfterBracket_length h)) (Nat.le_refl _))))

/-!
## Claim theorems (second group): the expander
-/

/-- C6: `expand_references` is a single left-to-right pass.  When a
matched token resolves, its content `v` is spliced in verbatim and only
the text after the match is scanned further, so reference tokens inside
`v` are never expanded (the match also covers exactly the bracketed
token: the input decomposes as `'['` ++ token ++ `']'` ++ rest). -/
theorem expand_no_rescan (B : Blocks) (cs tok rest v : Str)
    (h1 : matchAfterBracket cs = some (tok, rest))
    (h2 : resolve_reference B tok = some v) :
    '[' :: cs = '[' :: (tok ++ ']' :: rest)
    ∧ expandChars B ('[' :: cs) = v ++ expandChars B rest := by
  refine ⟨?_, expandChars_bracket_resolved B h1 h2⟩
  rw [matchAfterBracket_sound h1]

/-- Witness for C6: block `x` resolves to the text `"[y]"`, which itself
is a resolvable token (block `y` resolves to `"Z"`); expanding `"[x]"`
yields `"[y]"` verbatim, not `"Z"`. -/
theorem expand_no_rescan_witness :
    '[' :: "x]".data = '[' :: ("x".data ++ ']' :: ([] : Str))
    ∧ expandChars
        [("c".data,
          [("x".data, [("s".data, ⟨[], "v1".data, [("v1".data, "[y]".data)]⟩)]),
           ("y".data, [("s".data, ⟨[], "v1".data, [("v1".data, "Z".data)]⟩)])])]
        ('[' :: "x]".data) =
      "[y]".data ++ expandChars
        [("c".data,
          [("x".data, [("s".data, ⟨[], "v1".data, [("v1".data, "[y]".data)]⟩)]),
           ("y".data, [("s".data, ⟨[], "v1".data, [("v1".data, "Z".data)]⟩)])])]
        [] :=
  expand_no_rescan
    [("c".data,
      [("x".data, [("s".data, ⟨[], "v1".data, [("v1".data, "[y]".data)]⟩)]),
       ("y".data, [("s".data, ⟨[], "v1".data, [("v1".data, "Z".data)]⟩)])])]
    "x]".data "x".data [] "[y]".data (by decide) (by decide)

/-- C7: when every token the pattern matches in a text resolves to
`none`, `expand_references` returns the text unchanged — unresolved
tokens are kept character-for-character in place (brackets included) and
text outside matches is copied. -/
theorem expand_unresolved_identity (B : Blocks) (text : Str)
    (h : ∀ tok ∈ findRefsChars text, resolve_reference B tok = none) :
    expandChars B text = text := by
  have main : ∀ (n : Nat) (t : Str), t.length ≤ n →
      (∀ tok ∈ findRefsChars t, resolve_reference B tok = none) →
      expandChars B t = t := by
    intro n
    induction n with
    | zero =>
      intro t hl _
      rw [List.length_eq_zero.mp (Nat.le_zero.mp hl)]
      rfl
    | succ n' ih =>
      intro t hl ht
      cases t with
      | nil => rfl
      | cons c cs =>
        rw [List.length_cons, Nat.succ_le_succ_iff] at hl
        by_cases hc : c = '['
        · subst hc
          cases hm : matchAfterBracket cs with
          | none =>
            rw [expandChars_bracket_none B hm,
              ih cs hl (by rw [← findRefsChars_bracket_none hm]; exact ht)]
          | some p =>
            obtain ⟨tok, rest⟩ := p
            have htok : resolve_reference B tok = none := by
              apply ht
              rw [findRefsChars_bracket_some hm]
              exact List.mem_cons_self _ _
            have hrest : ∀ tk ∈ findRefsChars rest, resolve_reference B tk = none := by
              intro tk htk
              apply ht
              rw [findRefsChars_bracket_some hm]
              exact List.mem_cons_of_mem _ htk
            have hlen : rest.length ≤ n' :=
              Nat.le_trans (Nat.le_of_lt (matchAfterBracket_length hm)) hl
            rw [expandChars_bracket_unresolved B hm htok, ih rest hlen hrest,
              ← matchAfterBracket_sound hm]
        · rw [expandChars_cons_other B hc,
            ih cs hl (by rw [← findRefsChars_cons_other hc]; exact ht)]
  exact main text.length text (Nat.le_refl _) h

/-- Witness for C7: on a document with no block named `nonexistent`,
`expand_references "Use [nonexistent] here"` returns the text unchanged. -/
theorem expand_unresolved_identity_witness :
    expandChars
        [("character".data,
          [("alice".data,
            [("raw".data, ⟨[], "v1".data, [("v1".data, "A".data)]⟩)])])]
        "Use [nonexistent] here".data =
      "Use [nonexistent] here".data :=
  expand_unresolved_identity
    [("character".data,
      [("alice".data,
        [("raw".data, ⟨[], "v1".data, [("v1".data, "A".data)]⟩)])])]
    "Use [nonexistent] here".data (by decide)

/-!
## Claim theorems (third group): resolver soundness
-/

theorem get_stage_output_sound {bd : BlockData} {s v : Str}
    (h : get_stage_output bd s = some v) :
    ∃ sn st, (sn, st) ∈ bd ∧ st.selected ≠ [] ∧
      dictGet st.selected st.output = some v := by
  rw [get_stage_output] at h
  split at h
  · cases h
  · rename_i st hg
    split at h
    · cases h
    · rename_i hsel
      exact ⟨s, st, dictGet_mem hg, hsel, h⟩

theorem get_default_stage_output_sound {bd : BlockData} {v : Str}
    (h : get_default_stage_output bd = some v) :
    ∃ sn st, (sn, st) ∈ bd ∧ st.selected ≠ [] ∧
      dictGet st.selected st.output = some v := by
  cases bd with
  | nil => cases h
  | cons q rest => exact get_stage_output_sound h

theorem get_block_sound {B : Blocks} {c n : Str} {bd : BlockData}
    (h : get_block B c n = some bd) :
    ∃ blks, (c, blks) ∈ B ∧ (n, bd) ∈ blks := by
  rw [get_block] at h
  split at h
  · cases h
  · rename_i blks hg
    exact ⟨blks, dictGet_mem hg, dictGet_mem h⟩

theorem find_block_by_name_sound {B : Blocks} {n c : Str} {bd : BlockData}
    (h : find_block_by_name B n = some (c, bd)) :
    ∃ blks, (c, blks) ∈ B ∧ (n, bd) ∈ blks := by
  rw [find_block_by_name] at h
  have hmem : (c, bd) ∈ blockMatches B n := by
    cases hm : blockMatches B n with
    | nil => rw [hm] at h; cases h
    | cons m tail =>
      cases tail with
      | nil =>
        rw [hm] at h
        cases h
        exact List.mem_cons_self _ _
      | cons m2 t2 => rw [hm] at h; cases h
  rw [blockMatches] at hmem
  obtain ⟨p, hp, hpf⟩ := List.mem_filterMap.mp hmem
  obtain ⟨bd2, hbd2, heq⟩ := Option.map_eq_some'.mp hpf
  have h1 : p.1 = c := congrArg Prod.fst heq
  have h2 : bd2 = bd := congrArg Prod.snd heq
  refine ⟨p.2, ?_, ?_⟩
  · rw [← h1]
    simpa using hp
  · subst h2
    exact dictGet_mem hbd2

/-- C1: `resolve_reference` is total (it is a Lean function, so it can
never raise), and whenever it returns a value, that value is exactly the
content stored in some stage's version mapping under that stage's
(non-empty) selected version key — never any other text. -/
theorem resolve_reference_sound (B : Blocks) (ref v : Str)
    (h : resolve_reference B ref = some v) :
    ∃ cat blks bn bd sn st,
      (cat, blks) ∈ B ∧ (bn, bd) ∈ blks ∧ (sn, st) ∈ bd ∧
        st.selected ≠ [] ∧ dictGet st.selected st.output = some v := by
  rw [resolve_reference] at h
  split at h
  · -- one segment: unique bare name, default stage
    rename_i bn hp1
    split at h
    · cases h
    · rename_i c bd hf
      obtain ⟨blks, hB, hblk⟩ := find_block_by_name_sound hf
      obtain ⟨sn, st, hst, hsel, hout⟩ := get_default_stage_output_sound h
      exact ⟨c, blks, bn, bd, sn, st, hB, hblk, hst, hsel, hout⟩
  · -- two segments: category:block first, then block:stage
    rename_i a b hp2
    split at h
    · rename_i bd hg
      obtain ⟨blks, hB, hblk⟩ := get_block_sound hg
      obtain ⟨sn, st, hst, hsel, hout⟩ := get_default_stage_output_sound h
      exact ⟨a, blks, b, bd, sn, st, hB, hblk, hst, hsel, hout⟩
    · split at h
      · rename_i c bd hf
        obtain ⟨blks, hB, hblk⟩ := find_block_by_name_sound hf
        obtain ⟨sn, st, hst, hsel, hout⟩ := get_stage_output_sound h
        exact ⟨c, blks, a, bd, sn, st, hB, hblk, hst, hsel, hout⟩
      · cases h
  · -- three segments: category:block:stage
    rename_i a b s3 hp3
    split at h
    · cases h
    · rename_i bd hg
      obtain ⟨blks, hB, hblk⟩ := get_block_sound hg
      obtain ⟨sn, st, hst, hsel, hout⟩ := get_stage_output_sound h
      exact ⟨a, blks, b, bd, sn, st, hB, hblk, hst, hsel, hout⟩
  · cases h

/-- Witness for C1: a concrete resolution whose result is the stored
selected-version content. -/
theorem resolve_reference_sound_witness :
    ∃ cat blks bn bd sn st,
      (cat, blks) ∈
          ([("character".data,
            [("alice".data,
              [("raw".data,
                ⟨[], "v1".data, [("v1".data, "Alice content".data)]⟩)])])] : Blocks)
        ∧ (bn, bd) ∈ blks ∧ (sn, st) ∈ bd ∧ st.selected ≠ [] ∧
          dictGet st.selected st.output = some "Alice content".data :=
  resolve_reference_sound
    [("character".data,
      [("alice".data,
        [("raw".data, ⟨[], "v1".data, [("v1".data, "Alice content".data)]⟩)])])]
    "[alice]".data "Alice content".data (by decide)

/-!
## Claim theorems (fourth group): the inward-reference index
-/

theorem reference_matches_iff (tok category block : Str) :
    reference_matches tok category block = true ↔
      (splitOnColon tok = [block]
        ∨ (∃ x y, splitOnColon tok = [x, y] ∧ ((x = category ∧ y = block) ∨ x = block))
        ∨ (∃ x y z, splitOnColon tok = [x, y, z] ∧ x = category ∧ y = block)) := by
  rw [reference_matches]
  cases hp : splitOnColon tok with
  | nil => simp
  | cons x t1 =>
    cases t1 with
    | nil => simp
    | cons y t2 =>
      cases t2 with
      | nil => simp [Bool.or_eq_true, Bool.and_eq_true, decide_eq_true_eq, and_assoc]
      | cons z t3 =>
        cases t3 with
        | nil => simp [Bool.and_eq_true, decide_eq_true_eq]
        | cons w t4 => simp

theorem stage_scan_cons (category block cat bn : Str) (r : Str × Stage)
    (bd : BlockData) :
    stage_scan category block cat bn (r :: bd) =
      (if stage_matches category block r.2 then [(cat, bn, r.1)] else []) ++
        stage_scan category block cat bn bd := by
  by_cases hcond : stage_matches category block r.2 = true
  · simp [stage_scan, List.filterMap_cons, hcond]
  · simp [stage_scan, List.filterMap_cons, hcond]

theorem stage_scan_mem_iff {category block cat bn : Str} {bd : BlockData}
    {t : Str × Str × Str} :
    t ∈ stage_scan category block cat bn bd ↔
      ∃ r ∈ bd, t = (cat, bn, r.1) ∧ stage_matches category block r.2 = true := by
  rw [stage_scan, List.mem_filterMap]
  constructor
  · rintro ⟨r, hr, hf⟩
    by_cases hcond : stage_matches category block r.2 = true
    · rw [if_pos hcond] at hf
      cases hf
      exact ⟨r, hr, rfl, hcond⟩
    · rw [if_neg hcond] at hf
      cases hf
  · rintro ⟨r, hr, ht, hcond⟩
    exact ⟨r, hr, by rw [if_pos hcond, ht]⟩

theorem stage_scan_shape {category block cat bn : Str} {bd : BlockData}
    {t : Str × Str × Str} (h : t ∈ stage_scan category block cat bn bd) :
    t.1 = cat ∧ t.2.1 = bn ∧ t.2.2 ∈ bd.map Prod.fst := by
  obtain ⟨r, hr, ht, _⟩ := stage_scan_mem_iff.mp h
  subst ht
  exact ⟨rfl, rfl, List.mem_map_of_mem _ hr⟩

theorem stage_scan_nodup {category block cat bn : Str} {bd : BlockData}
    (h : (bd.map Prod.fst).Nodup) :
    (stage_scan category block cat bn bd).Nodup := by
  induction bd with
  | nil => simp [stage_scan]
  | cons r bd' ih =>
    rw [List.map_cons, List.nodup_cons] at h
    rw [stage_scan_cons]
    by_cases hcond : stage_matches category block r.2 = true
    · rw [if_pos hcond, List.singleton_append, List.nodup_cons]
      refine ⟨fun hmem => ?_, ih h.2⟩
      exact h.1 ((stage_scan_shape hmem).2.2)
    · rw [if_neg hcond, List.nil_append]
      exact ih h.2

theorem block_scan_shape {category block cat : Str} {blks : CategoryBlocks}
    {t : Str × Str × Str} (h : t ∈ block_scan category block cat blks) :
    t.1 = cat ∧ t.2.1 ∈ blks.map Prod.fst := by
  rw [block_scan] at h
  obtain ⟨q, hq, hmem⟩ := List.mem_flatMap.mp h
  obtain ⟨h1, h2, _⟩ := stage_scan_shape hmem
  exact ⟨h1, h2 ▸ List.mem_map_of_mem _ hq⟩

theorem block_scan_nodup {category block cat : Str} {blks : CategoryBlocks}
    (hkeys : (blks.map Prod.fst).Nodup)
    (hst : ∀ q ∈ blks, (q.2.map Prod.fst).Nodup) :
    (block_scan category block cat blks).Nodup := by
  induction blks with
  | nil => simp [block_scan]
  | cons q blks' ih =>
    rw [List.map_cons, List.nodup_cons] at hkeys
    rw [block_scan, List.flatMap_cons, List.nodup_append]
    refine ⟨stage_scan_nodup (hst q (List.mem_cons_self q blks')), ?_, ?_⟩
    · exact ih hkeys.2 fun q2 hq2 => hst q2 (List.mem_cons_of_mem q hq2)
    · intro t ht1 ht2
      have h1 := (stage_scan_shape ht1).2.1
      have h2 := (block_scan_shape ht2).2
      rw [h1] at h2
      exact hkeys.1 h2

theorem find_references_to_shape {B : Blocks} {category block : Str}
    {t : Str × Str × Str} (h : t ∈ find_references_to B category block) :
    t.1 ∈ B.map Prod.fst := by
  rw [find_references_to] at h
  obtain ⟨p, hp, hmem⟩ := List.mem_flatMap.mp h
  exact (block_scan_shape hmem).1 ▸ List.mem_map_of_mem _ hp

theorem find_references_to_mem_iff {B : Blocks} {category block : Str}
    {t : Str × Str × Str} :
    t ∈ find_references_to B category block ↔
      ∃ p ∈ B, ∃ q ∈ p.2, ∃ r ∈ q.2,
        t = (p.1, q.1, r.1) ∧ stage_matches category block r.2 = true := by
  rw [find_references_to, List.mem_flatMap]
  constructor
  · rintro ⟨p, hp, hmem⟩
    rw [block_scan, List.mem_flatMap] at hmem
    obtain ⟨q, hq, hmem2⟩ := hmem
    obtain ⟨r, hr, ht, hcond⟩ := stage_scan_mem_iff.mp hmem2
    exact ⟨p, hp, q, hq, r, hr, ht, hcond⟩
  · rintro ⟨p, hp, q, hq, r, hr, ht, hcond⟩
    refine ⟨p, hp, ?_⟩
    rw [block_scan, List.mem_flatMap]
    exact ⟨q, hq, stage_scan_mem_iff.mpr ⟨r, hr, ht, hcond⟩⟩

/-- C8: `find_references_to (c, b)` returns exactly the
`(category, block, stage)` triples whose stage input contains at least
one token matching the target — a 1-segment token matches iff it equals
`b`, a 2-segment token `(x, y)` matches iff (`x = c` and `y = b`) or
`x = b`, and a 3-segment token matches iff its first two segments equal
`c` and `b` — and (on a well-formed document, whose dict keys are
distinct) each stage contributes at most one triple, so the result has
no duplicates. -/
theorem find_references_to_spec (B : Blocks) (category block : Str)
    (hwf : WF B) :
    (∀ cat bn sn, (cat, bn, sn) ∈ find_references_to B category block ↔
      ∃ blks bd st, (cat, blks) ∈ B ∧ (bn, bd) ∈ blks ∧ (sn, st) ∈ bd ∧
        ∃ tok ∈ findRefsChars st.input,
          (splitOnColon tok = [block]
            ∨ (∃ x y, splitOnColon tok = [x, y] ∧
                ((x = category ∧ y = block) ∨ x = block))
            ∨ (∃ x y z, splitOnColon tok = [x, y, z] ∧
                x = category ∧ y = block))) ∧
      (find_references_to B category block).Nodup := by
  have hcond : ∀ st : Stage, stage_matches category block st = true ↔
      ∃ tok ∈ findRefsChars st.input,
        (splitOnColon tok = [block]
          ∨ (∃ x y, splitOnColon tok = [x, y] ∧
              ((x = category ∧ y = block) ∨ x = block))
          ∨ (∃ x y z, splitOnColon tok = [x, y, z] ∧
              x = category ∧ y = block)) := by
    intro st
    rw [stage_matches, List.any_eq_true]
    exact exists_congr fun tok =>
      and_congr_right fun _ => reference_matches_iff tok category block
  constructor
  · intro cat bn sn
    rw [find_references_to_mem_iff]
    constructor
    · rintro ⟨p, hp, q, hq, r, hr, ht, hc⟩
      have h1 : cat = p.1 := congrArg (fun u => u.1) ht
      have h2 : bn = q.1 := congrArg (fun u => u.2.1) ht
      have h3 : sn = r.1 := congrArg (fun u => u.2.2) ht
      refine ⟨p.2, q.2, r.2, ?_, ?_, ?_, (hcond r.2).mp hc⟩
      · rw [h1]; simpa using hp
      · rw [h2]; simpa using hq
      · rw [h3]; simpa using hr
    · rintro ⟨blks, bd, st, hB, hblk, hst, htok⟩
      exact ⟨(cat, blks), hB, (bn, bd), hblk, (sn, st), hst, rfl,
        (hcond st).mpr htok⟩
  · obtain ⟨hkeys, hrest⟩ := hwf
    clear hcond
    induction B with
    | nil => simp [find_references_to]
    | cons p B' ih =>
      rw [List.map_cons, List.nodup_cons] at hkeys
      rw [find_references_to, List.flatMap_cons, List.nodup_append]
      refine ⟨?_, ?_, ?_⟩
      · have hp := hrest p (List.mem_cons_self p B')
        exact block_scan_nodup hp.1 hp.2
      · exact ih hkeys.2 fun p2 hp2 => hrest p2 (List.mem_cons_of_mem p hp2)
      · intro t ht1 ht2
        have h1 := (block_scan_shape ht1).1
        have h2 := find_references_to_shape ht2
        rw [h1] at h2
        exact hkeys.1 h2

/-- Witness for C8: in a document with blocks `opening` (input
`"[character:alice] appears"`), `ending` (input `"[alice] leaves"`) and
`middle` (no reference), the stages of `opening` and `ending` reference
the target `(character, alice)` and `middle` does not. -/
theorem find_references_to_spec_witness :
    ("story".data, "opening".data, "draft".data) ∈
        find_references_to
          [("character".data,
            [("alice".data,
              [("raw".data, ⟨[], "v1".data, [("v1".data, "A".data)]⟩)])]),
           ("story".data,
            [("opening".data,
              [("draft".data, ⟨"[character:alice] appears".data, [], []⟩)]),
             ("ending".data,
              [("draft".data, ⟨"[alice] leaves".data, [], []⟩)]),
             ("middle".data,
              [("draft".data, ⟨"no reference".data, [], []⟩)])])]
          "character".data "alice".data
      ↔ ∃ blks bd st,
          ("story".data, blks) ∈
            ([("character".data,
              [("alice".data,
                [("raw".data, ⟨[], "v1".data, [("v1".data, "A".data)]⟩)])]),
             ("story".data,
              [("opening".data,
                [("draft".data, ⟨"[character:alice] appears".data, [], []⟩)]),
               ("ending".data,
                [("draft".data, ⟨"[alice] leaves".data, [], []⟩)]),
               ("middle".data,
                [("draft".data, ⟨"no reference".data, [], []⟩)])])] : Blocks)
          ∧ ("opening".data, bd) ∈ blks ∧ ("draft".data, st) ∈ bd ∧
            ∃ tok ∈ findRefsChars st.input,
              (splitOnColon tok = ["alice".data]
                ∨ (∃ x y, splitOnColon tok = [x, y] ∧
                    ((x = "character".data ∧ y = "alice".data) ∨ x = "alice".data))
                ∨ (∃ x y z, splitOnColon tok = [x, y, z] ∧
                    x = "character".data ∧ y = "alice".data)) :=
  (find_references_to_spec
      [("character".data,
        [("alice".data,
          [("raw".data, ⟨[], "v1".data, [("v1".data, "A".data)]⟩)])]),
       ("story".data,
        [("opening".data,
          [("draft".data, ⟨"[character:alice] appears".data, [], []⟩)]),
         ("ending".data,
          [("draft".data, ⟨"[alice] leaves".data, [], []⟩)]),
         ("middle".data,
          [("draft".data, ⟨"no reference".data, [], []⟩)])])]
      "character".data "alice".data
      ⟨by decide, by decide⟩).1 "story".data "opening".data "draft".data

/-!
## Claim theorems (fifth group): state purity of the reference operations
-/

/-- Counterexample to C4 as stated: on a project state whose `"blocks"`
section is missing (reachable, e.g. `Project.load` only checks for the
`"storyforge"` key), `find_references_to` calls
`_ensure_blocks_section`, which inserts `"blocks": {}` — the state dict
after the call differs from the state before it.  The same happens for
`resolve_reference`, `expand_references` and `find_references_in`. -/
theorem reference_ops_not_pure_counterexample :
    (find_references_to_st ⟨none, []⟩ [] []).2 ≠ (⟨none, []⟩ : PState) := by
  intro h
  rw [find_references_to_st] at h
  simp [ensure_blocks_section, PState.blocks, PState.mk.injEq] at h

/-- C4 (amended): on every project state that already has a `"blocks"`
section, all four reference operations leave the state unchanged; the
only effect any of them can ever have is initialising a missing
`"blocks"` section to the empty dict. -/
theorem reference_ops_pure_when_blocks_present (s : PState) (bs : Blocks)
    (h : s.blocks? = some bs) (ref text category block : Str) :
    (resolve_reference_st s ref).2 = s
    ∧ (expand_references_st s text).2 = s
    ∧ (find_references_in_st s category block).2 = s
    ∧ (find_references_to_st s category block).2 = s := by
  obtain ⟨b, r⟩ := s
  have hb : b = some bs := h
  subst hb
  have he : ensure_blocks_section ⟨some bs, r⟩ = ⟨some bs, r⟩ := rfl
  refine ⟨?_, ?_, ?_, ?_⟩
  · rw [resolve_reference_st]
    split
    · rw [he]
    · rfl
  · rw [expand_references_st]
    split
    · rfl
    · rw [he]
  · rw [find_references_in_st, he]
  · rw [find_references_to_st, he]

/-- Witness for C4 (amended) at a concrete state with a present (empty)
blocks section. -/
theorem reference_ops_pure_witness :
    (resolve_reference_st ⟨some [], []⟩ "x".data).2 = (⟨some [], []⟩ : PState)
    ∧ (expand_references_st ⟨some [], []⟩ "t [x]".data).2 = (⟨some [], []⟩ : PState)
    ∧ (find_references_in_st ⟨some [], []⟩ "c".data "b".data).2 =
        (⟨some [], []⟩ : PState)
    ∧ (find_references_to_st ⟨some [], []⟩ "c".data "b".data).2 =
        (⟨some [], []⟩ : PState) :=
  reference_ops_pure_when_blocks_present ⟨some [], []⟩ [] rfl "x".data
    "t [x]".data "c".data "b".data

end StoryForge
